import Mathlib

/-!
Verification development for the `ngx-signal-immutability` library.

The runtime core of the library is a small set of JavaScript utilities that
walk a value graph: `deepFreeze` (recursively `Object.freeze` a value),
`naiveDeepClone` (JSON round-trip deep clone), `deepClone` (dispatch to the
host `structuredClone` when available, else the naive clone),
`naiveCloneAndMutate` (clone-and-mutate update producer), plus the signal
wrapper `immutableSignal` / `immutable` and the process-wide option record.

We embed the value graphs in a heap model: a heap is a list of nodes
(composites or callables), addressed by position; a value is a primitive or a
reference into the heap.  Mutation of the graph (freezing a node, writing a
field) becomes an explicit heap transformation.  Recursive graph walks are
given fuel; `none` models a walk that does not complete (a thrown error or a
diverging traversal).
-/

namespace SigImm

/-- JavaScript primitive values, as far as the library's traversals
distinguish them.  Numbers are modelled as integers: no claim in scope
depends on float arithmetic. -/
inductive Prim where
  | null
  | undef
  | pbool (b : Bool)
  | pint (n : Int)
  | pstr (s : String)
deriving DecidableEq

/-- A JavaScript value: a primitive, or a reference to a heap node. -/
inductive Val where
  | prim (p : Prim)
  | ref (a : Nat)
deriving DecidableEq

/-- The kind of a heap node: plain object, array, or callable (function). -/
inductive NodeKind where
  | object
  | array
  | callable
deriving DecidableEq

/-- A heap node: its kind, its `Object.isFrozen` status, and its own
(string-keyed) properties in enumeration order. -/
structure Node where
  kind : NodeKind
  frozen : Bool
  fields : List (String × Val)
deriving DecidableEq

/-- A heap: nodes addressed by list position. -/
abbrev Heap := List Node

/-- `Object.isFrozen` at an address (false for a dangling address). -/
def nodeFrozen (heap : Heap) (a : Nat) : Bool :=
  match heap[a]? with
  | some n => n.frozen
  | none => false

/-- Number of unfrozen nodes in the heap; the measure that makes the
freezing traversal terminate. -/
def unfrozenCount : Heap → Nat
  | [] => 0
  | n :: rest => (if n.frozen then 0 else 1) + unfrozenCount rest

/-- Well-formedness: every reference stored in a node's fields points to an
existing node.  The JavaScript runtime guarantees this for real object
graphs. -/
def wfHeap (heap : Heap) : Bool :=
  heap.all fun node =>
    node.fields.all fun kv =>
      match kv.2 with
      | Val.ref b => b < heap.length
      | Val.prim _ => true

/-- Model of the host `Object.freeze`: mark the node at `a` frozen.
Property descriptors are not modelled; the frozen flag stands for the
host's guarantee that writes to the node are rejected. -/
def setFrozen (heap : Heap) (a : Nat) : Heap :=
  match heap[a]? with
  | some n => heap.set a { n with frozen := true }
  | none => heap

/-- The own properties that `deepFreeze` traverses on a node: for callables
the language-reserved identity properties `caller`, `callee` and
`arguments` are excluded (freezing them is disallowed by the host runtime);
for other nodes every own property is visited.  Mirrors the
`oIsFunction ? prop !== 'caller' && ... : true` guard of the source. -/
def visitProps (node : Node) : List (String × Val) :=
  if node.kind == NodeKind.callable then
    node.fields.filter fun kv =>
      !(kv.1 == "caller" || kv.1 == "callee" || kv.1 == "arguments")
  else
    node.fields

/-- The `forEach` loop of `deepFreeze`: visit each property value in order;
recurse (through `recur`, the freezer one fuel step down) into reference
values whose target exists and is not frozen at visit time, skip everything
else. -/
def freezeStep (recur : Heap → Nat → Option Heap) : Heap → List Val → Option Heap
  | heap, [] => some heap
  | heap, Val.prim _ :: rest => freezeStep recur heap rest
  | heap, Val.ref b :: rest =>
    match heap[b]? with
    | none => freezeStep recur heap rest
    | some node =>
      if node.frozen then freezeStep recur heap rest
      else
        match recur heap b with
        | none => none
        | some h1 => freezeStep recur h1 rest

/-- `deepFreeze` on the node at address `a` (the source's recursive body for
a non-nullish object/function argument): freeze the node itself, then walk
its visited own properties, recursing into each property value that is a
non-null composite/callable not already frozen.  Fuel-indexed; `none` means
the fuel ran out before the walk completed. -/
def deepFreezeF : Nat → Heap → Nat → Option Heap
  | 0, _, _ => none
  | fuel+1, heap, a =>
    match heap[a]? with
    | none => some heap
    | some node => freezeStep (deepFreezeF fuel) (setFrozen heap a) ((visitProps node).map Prod.snd)

/-- `deepFreeze` on an arbitrary value.  A primitive is left alone (falsy
primitives skip the body via `if (obj)`; truthy primitives are already
immutable and their wrapper properties are all primitive-valued), and the
function returns its argument. -/
def deepFreeze (fuel : Nat) (heap : Heap) (v : Val) : Option (Heap × Val) :=
  match v with
  | Val.prim _ => some (heap, v)
  | Val.ref a => (deepFreezeF fuel heap a).map fun h => (h, v)

/-- Clone the fields of a node of kind `kind`, left to right, threading the
heap; `recur` is the cloner one fuel step down.  Values a JSON round-trip
cannot represent (`undefined`, callables) are dropped from objects and
become `null` in arrays in the naive mode; callables abort the structured
mode. -/
def cloneFieldsStep (recur : Heap → Val → Option (Heap × Val)) (sc : Bool) (kind : NodeKind) :
    Heap → List (String × Val) → Option (Heap × List (String × Val))
  | heap, [] => some (heap, [])
  | heap, (k, Val.prim p) :: rest =>
    if !sc && p == Prim.undef then
      match cloneFieldsStep recur sc kind heap rest with
      | none => none
      | some (h1, rest') =>
        some (h1, if kind == NodeKind.array then (k, Val.prim Prim.null) :: rest' else rest')
    else
      match cloneFieldsStep recur sc kind heap rest with
      | none => none
      | some (h1, rest') => some (h1, (k, Val.prim p) :: rest')
  | heap, (k, Val.ref b) :: rest =>
    match heap[b]? with
    | none => none
    | some node =>
      if node.kind == NodeKind.callable then
        if sc then none
        else
          match cloneFieldsStep recur sc kind heap rest with
          | none => none
          | some (h1, rest') =>
            some (h1, if kind == NodeKind.array then (k, Val.prim Prim.null) :: rest' else rest')
      else
        match recur heap (Val.ref b) with
        | none => none
        | some (h1, v') =>
          match cloneFieldsStep recur sc kind h1 rest with
          | none => none
          | some (h2, rest') => some (h2, (k, v') :: rest')

/-- Deep structural clone of a value, fuel-indexed.  `sc = false` models
`naiveDeepClone` (`JSON.parse(JSON.stringify(value))`): callables make the
round-trip throw at top level and are dropped (object field) or nullified
(array element) below it, and `undefined` values are likewise dropped or
nullified.  `sc = true` models the host `structuredClone`
(spec §4.1 mode 1) on this value domain: callables throw `DataCloneError`,
`undefined` is preserved.  In both modes composites are rebuilt as fresh
unfrozen nodes appended to the heap.  `none` models a thrown error or a
traversal that does not complete (cyclic graph under the naive mode). -/
def cloneF (sc : Bool) : Nat → Heap → Val → Option (Heap × Val)
  | 0, _, _ => none
  | _+1, heap, Val.prim p =>
    if !sc && p == Prim.undef then none else some (heap, Val.prim p)
  | fuel+1, heap, Val.ref a =>
    match heap[a]? with
    | none => none
    | some node =>
      if node.kind == NodeKind.callable then none
      else
        match cloneFieldsStep (cloneF sc fuel) sc node.kind heap node.fields with
        | none => none
        | some (h1, fields') =>
          some (h1 ++ [⟨node.kind, false, fields'⟩], Val.ref h1.length)

/-- `naiveDeepClone`: the JSON round-trip clone. -/
def naiveDeepClone : Nat → Heap → Val → Option (Heap × Val) := cloneF false

/-- Model of the host `structuredClone` (an external collaborator of the
repository; spec §4.1 mode 1) on this value domain. -/
def structuredCloneM : Nat → Heap → Val → Option (Heap × Val) := cloneF true

/-- `deepClone`: dispatch on availability of `structuredClone` in the host
(`'structuredClone' in window`), falling back to the naive clone. -/
def deepClone (hasStructuredClone : Bool) : Nat → Heap → Val → Option (Heap × Val) :=
  if hasStructuredClone then structuredCloneM else naiveDeepClone

/-- Reachability between heap addresses along stored references (all own
properties, reserved or not). -/
inductive ReachF (heap : Heap) : Nat → Nat → Prop where
  | refl (a : Nat) : ReachF heap a a
  | tail {a b c : Nat} {node : Node} {k : String} : ReachF heap a b →
      heap[b]? = some node → (k, Val.ref c) ∈ node.fields → ReachF heap a c

/-- The addresses reachable from a value: none for a primitive, everything
`ReachF`-reachable from the referenced node (itself included) otherwise. -/
def VReach (heap : Heap) (v : Val) (b : Nat) : Prop :=
  match v with
  | Val.prim _ => False
  | Val.ref a => ReachF heap a b

/-- A caller-supplied mutation function: receives the heap and the draft
root, performs in-place writes (a new heap), and either returns normally
(`true`) or throws (`false`).  The heap it returns also reflects any side
effects performed before a throw. -/
abbrev MutatorFn := Heap → Val → Heap × Bool

/-- The mutation function touches only nodes reachable from the draft it is
given: it may extend the heap with fresh nodes, but every pre-existing node
not reachable from the argument is left untouched.  This is the spec's
contract for a Mutation Function ("receives a draft, may perform arbitrary
in-place writes on it"). -/
def LocalMutator (m : MutatorFn) : Prop :=
  ∀ heap v, heap.length ≤ (m heap v).1.length ∧
    ∀ b, b < heap.length → ¬ VReach heap v b → (m heap v).1[b]? = heap[b]?

/-- `naiveCloneAndMutate`: clone the current value with `deepClone`, run the
mutation on the clone, return the clone as the new value.  A clone failure
or a throwing mutation yields no new value (`none` in the second
component), with the heap as of the abort. -/
def naiveCloneAndMutate (hasStructuredClone : Bool) (fuel : Nat) (heap : Heap) (currentValue : Val) (mutation : MutatorFn) : Heap × Option Val :=
  match deepClone hasStructuredClone fuel heap currentValue with
  | none => (heap, none)
  | some (h1, clone) =>
    match mutation h1 clone with
    | (h2, true) => (h2, some clone)
    | (h2, false) => (h2, none)

/-- A clone-and-mutate style production strategy:
`(currentValue, mutation) -> next`, with the heap threaded and `none`
modelling a throw. -/
abbrev MutationProducerFn := Heap → Val → MutatorFn → Heap × Option Val

/-- `CreateImmutableSignalOptions`: both options optional per call. -/
structure CreateImmutableSignalOptions where
  mutationProducerFn : Option MutationProducerFn
  enableDeepFreezing : Option Bool

/-- `Required<CreateImmutableSignalOptions>`: the process-wide option
record. -/
structure GlobalOptions where
  mutationProducerFn : MutationProducerFn
  enableDeepFreezing : Bool

/-- `getDefaultImmutableSignalOptions`: the built-in defaults —
`naiveCloneAndMutate` and deep freezing off.  `hasStructuredClone` and
`fuel` are model parameters of the embedded clone-and-mutate function, not
options of the library. -/
def getDefaultImmutableSignalOptions (hasStructuredClone : Bool) (fuel : Nat) : GlobalOptions :=
  { mutationProducerFn := naiveCloneAndMutate hasStructuredClone fuel
    enableDeepFreezing := false }

/-- `setGlobalImmutableSignalOptions`: with a nullish argument
(`if (options)`) the configuration is left unchanged; otherwise the whole
record is rebuilt, each omitted option falling back to the built-in
default (not to the previously configured value). -/
def setGlobalImmutableSignalOptions (hasStructuredClone : Bool) (fuel : Nat)
    (options : Option CreateImmutableSignalOptions) (current : GlobalOptions) : GlobalOptions :=
  match options with
  | none => current
  | some o =>
    { mutationProducerFn :=
        o.mutationProducerFn.getD (getDefaultImmutableSignalOptions hasStructuredClone fuel).mutationProducerFn
      enableDeepFreezing :=
        o.enableDeepFreezing.getD (getDefaultImmutableSignalOptions hasStructuredClone fuel).enableDeepFreezing }

/-- Resolution of the per-call deep-freezing option against the process-wide
configuration: `options?.enableDeepFreezing ?? global.enableDeepFreezing`. -/
def resolveEnableDeepFreezing (options : Option CreateImmutableSignalOptions)
    (global : GlobalOptions) : Bool :=
  (options.bind (·.enableDeepFreezing)).getD global.enableDeepFreezing

/-- Resolution of the per-call production strategy against the process-wide
configuration: `options?.mutationProducerFn ?? global.mutationProducerFn`. -/
def resolveMutationProducerFn (options : Option CreateImmutableSignalOptions)
    (global : GlobalOptions) : MutationProducerFn :=
  (options.bind (·.mutationProducerFn)).getD global.mutationProducerFn

/-- The state of a writable signal: the heap and the current value. -/
structure SigState where
  heap : Heap
  value : Val
deriving DecidableEq

/-- The underlying signal's `set` (also the final step of `update`): keep
the old value when the configured equality holds (no change, no
notification), else store the new value.  Heap effects performed while
computing the candidate value persist either way. -/
def rawSet (equal : Val → Val → Bool) (s : SigState) (h : Heap) (v : Val) : SigState :=
  if equal s.value v then { heap := h, value := s.value } else { heap := h, value := v }

/-- The observable operations of the object `immutableSignal` returns. -/
structure ImmutableWritableSignal where
  initial : SigState
  set : SigState → Val → Option SigState
  update : SigState → (Heap → Val → Heap × Val) → Option SigState
  mutate : SigState → MutatorFn → Option SigState

/-- `immutableSignal`: resolve the options (per-call over global), then the
Proxy dispatch — `set` and `update` deep-freeze the incoming value when
deep freezing is enabled; `mutate` hands the mutation to the resolved
production strategy and commits its result through the raw signal's
`update` (the Proxy's own `update` wrapper is not consulted:
`target.update` is the unproxied method). -/
def immutableSignal (fuel : Nat) (initialHeap : Heap) (initialValue : Val)
    (options : Option CreateImmutableSignalOptions) (global : GlobalOptions)
    (equalOpt : Option (Val → Val → Bool)) : ImmutableWritableSignal :=
  let strictEqualityFn := equalOpt.getD fun a b => a == b
  let deepFreezeEnabled := resolveEnableDeepFreezing options global
  let mutateFn := resolveMutationProducerFn options global
  { initial := ⟨initialHeap, initialValue⟩
    set := fun s v =>
      if deepFreezeEnabled then
        (deepFreeze fuel s.heap v).map fun p => rawSet strictEqualityFn s p.1 p.2
      else
        some (rawSet strictEqualityFn s s.heap v)
    update := fun s f =>
      let p := f s.heap s.value
      if deepFreezeEnabled then
        (deepFreeze fuel p.1 p.2).map fun q => rawSet strictEqualityFn s q.1 q.2
      else
        some (rawSet strictEqualityFn s p.1 p.2)
    mutate := fun s mutatorFn =>
      match mutateFn s.heap s.value mutatorFn with
      | (_, none) => none
      | (h1, some v1) => some (rawSet strictEqualityFn s h1 v1) }

/-- A read-only signal, as `immutable` sees it: reading yields a value (and
possibly performs heap effects, e.g. freezing in a derived computed). -/
abbrev Signal := Heap → Option (Heap × Val)

/-- Resolution of `immutable`'s per-call flag:
`options?.enableDeepFreezing ?? global.enableDeepFreezing`. -/
def resolveImmutableEnable (options : Option (Option Bool)) (global : GlobalOptions) : Bool :=
  (options.bind id).getD global.enableDeepFreezing

/-- `immutable`: when deep freezing resolves to off, the very signal passed
in is returned; otherwise a derived signal whose reads pass the underlying
value through `deepFreeze`. -/
def immutable (fuel : Nat) (sig : Signal) (options : Option (Option Bool))
    (global : GlobalOptions) : Signal :=
  if resolveImmutableEnable options global then
    fun h => (sig h).bind fun p => deepFreeze fuel p.1 p.2
  else
    sig

/-- An edge of the freezing traversal: a visited own property of the node
at `b` holds a reference to `c` (reserved identity properties of callables
are not visited). -/
def visitEdge (heap : Heap) (b c : Nat) : Prop :=
  ∃ node k, heap[b]? = some node ∧ (k, Val.ref c) ∈ visitProps node

/-- Reachability along visited edges, from the node the freezer is applied
to. -/
inductive ReachV (heap : Heap) (a : Nat) : Nat → Prop where
  | refl : ReachV heap a a
  | tail {b c : Nat} : ReachV heap a b → visitEdge heap b c → ReachV heap a c

/-- Acyclic JSON-like values of bounded depth: primitives other than
`undefined`, and references to non-callable existing nodes all of whose
field values are JSON-like of smaller depth. -/
inductive JsonVal (heap : Heap) : Val → Nat → Prop where
  | prim {p : Prim} {n : Nat} : p ≠ Prim.undef → JsonVal heap (Val.prim p) n
  | node {a n : Nat} {node : Node} : heap[a]? = some node →
      node.kind ≠ NodeKind.callable →
      (∀ kv, kv ∈ node.fields → JsonVal heap kv.2 n) →
      JsonVal heap (Val.ref a) (n + 1)

mutual
/-- Deep structural equality of two values (each read in its own heap):
primitives are identical; references lead to nodes of the same kind with
pointwise deeply-equal fields under the same keys.  Frozen flags are not
compared (structural equality of the value graphs). -/
inductive DeepEq : Heap → Heap → Val → Val → Prop where
  | prim (h1 h2 : Heap) (p : Prim) : DeepEq h1 h2 (Val.prim p) (Val.prim p)
  | node {h1 h2 : Heap} {a b : Nat} {n1 n2 : Node} : h1[a]? = some n1 →
      h2[b]? = some n2 → n1.kind = n2.kind → DeepEqFields h1 h2 n1.fields n2.fields →
      DeepEq h1 h2 (Val.ref a) (Val.ref b)

/-- Pointwise deep equality of two field lists. -/
inductive DeepEqFields : Heap → Heap → List (String × Val) → List (String × Val) → Prop where
  | nil (h1 h2 : Heap) : DeepEqFields h1 h2 [] []
  | cons {h1 h2 : Heap} {k : String} {v1 v2 : Val} {r1 r2 : List (String × Val)} :
      DeepEq h1 h2 v1 v2 → DeepEqFields h1 h2 r1 r2 →
      DeepEqFields h1 h2 ((k, v1) :: r1) ((k, v2) :: r2)
end

/-! ### Basic lookup facts -/

theorem lookup_lt {l : Heap} {n : Nat} {x : Node} (h : l[n]? = some x) : n < l.length :=
  (List.getElem?_eq_some.mp h).1

theorem lookup_exists {l : Heap} {n : Nat} (h : n < l.length) : ∃ x, l[n]? = some x :=
  ⟨l[n], List.getElem?_eq_some.mpr ⟨h, rfl⟩⟩

theorem lookup_append_left {l1 : Heap} (l2 : Heap) {b : Nat} (h : b < l1.length) :
    (l1 ++ l2)[b]? = l1[b]? := by
  rw [List.getElem?_append, if_pos h]

/-! ### Freezing extension: same shape, monotone frozen flags -/

/-- One node extends another by (possibly) freezing it: identical kind and
fields, monotone frozen flag. -/
def NodeExt (n n' : Node) : Prop :=
  n'.kind = n.kind ∧ n'.fields = n.fields ∧ (n.frozen = true → n'.frozen = true)

/-- A heap extends another by freezing some nodes in place. -/
def FrEq (h h' : Heap) : Prop := List.Forall₂ NodeExt h h'

theorem nodeExt_refl (n : Node) : NodeExt n n := ⟨rfl, rfl, fun h => h⟩

theorem nodeExt_trans {n1 n2 n3 : Node} (h1 : NodeExt n1 n2) (h2 : NodeExt n2 n3) :
    NodeExt n1 n3 :=
  ⟨h2.1.trans h1.1, h2.2.1.trans h1.2.1, fun h => h2.2.2 (h1.2.2 h)⟩

theorem frEq_refl (h : Heap) : FrEq h h := by
  induction h with
  | nil => exact List.Forall₂.nil
  | cons n t ih => exact List.Forall₂.cons (nodeExt_refl n) ih

theorem frEq_trans {h1 h2 h3 : Heap} (a : FrEq h1 h2) (b : FrEq h2 h3) : FrEq h1 h3 := by
  induction a generalizing h3 with
  | nil => cases b; exact List.Forall₂.nil
  | cons hn _ ih => cases b with
    | cons hn' ht' => exact List.Forall₂.cons (nodeExt_trans hn hn') (ih ht')

theorem frEq_length {h h' : Heap} (e : FrEq h h') : h.length = h'.length :=
  List.Forall₂.length_eq e

theorem frEq_lookup {h h' : Heap} (e : FrEq h h') :
    ∀ {i : Nat} {n : Node}, h[i]? = some n → ∃ n', h'[i]? = some n' ∧ NodeExt n n' := by
  induction e with
  | nil => intro i n hn; simp at hn
  | cons hn _ ih =>
    intro i m hm
    cases i with
    | zero => simp_all
    | succ j => rw [List.getElem?_cons_succ] at hm ⊢; exact ih hm

theorem frEq_lookup_back {h h' : Heap} (e : FrEq h h') :
    ∀ {i : Nat} {n' : Node}, h'[i]? = some n' → ∃ n, h[i]? = some n ∧ NodeExt n n' := by
  induction e with
  | nil => intro i n hn; simp at hn
  | cons hn _ ih =>
    intro i m hm
    cases i with
    | zero => simp_all
    | succ j => rw [List.getElem?_cons_succ] at hm ⊢; exact ih hm

theorem frEq_frozen {h h' : Heap} (e : FrEq h h') {a : Nat}
    (hf : nodeFrozen h a = true) : nodeFrozen h' a = true := by
  unfold nodeFrozen at hf ⊢
  cases hl : h[a]? with
  | none => rw [hl] at hf; cases hf
  | some n =>
    rw [hl] at hf
    obtain ⟨n', hl', hext⟩ := frEq_lookup e hl
    rw [hl']
    exact hext.2.2 hf

theorem frEq_set {h : Heap} {a : Nat} {n n' : Node} (hl : h[a]? = some n)
    (hext : NodeExt n n') : FrEq h (h.set a n') := by
  induction h generalizing a with
  | nil => simp at hl
  | cons m t ih =>
    cases a with
    | zero =>
      rw [List.getElem?_cons_zero] at hl
      cases hl
      exact List.Forall₂.cons hext (frEq_refl t)
    | succ j =>
      rw [List.getElem?_cons_succ] at hl
      exact List.Forall₂.cons (nodeExt_refl m) (ih hl)

theorem frEq_setFrozen (h : Heap) (a : Nat) : FrEq h (setFrozen h a) := by
  unfold setFrozen
  cases hl : h[a]? with
  | none => exact frEq_refl h
  | some n => exact frEq_set hl ⟨rfl, rfl, fun _ => rfl⟩

theorem setFrozen_length (h : Heap) (a : Nat) : (setFrozen h a).length = h.length :=
  (frEq_length (frEq_setFrozen h a)).symm

theorem setFrozen_self {h : Heap} {a : Nat} {n : Node} (hl : h[a]? = some n) :
    (setFrozen h a)[a]? = some { n with frozen := true } := by
  unfold setFrozen
  rw [hl]
  exact List.getElem?_set_self (lookup_lt hl)

theorem setFrozen_frozen {h : Heap} {a : Nat} {n : Node} (hl : h[a]? = some n) :
    nodeFrozen (setFrozen h a) a = true := by
  unfold nodeFrozen
  rw [setFrozen_self hl]

theorem setFrozen_other {h : Heap} {a b : Nat} (hne : a ≠ b) :
    (setFrozen h a)[b]? = h[b]? := by
  unfold setFrozen
  cases hl : h[a]? with
  | none => rfl
  | some n => exact List.getElem?_set_ne hne

theorem setFrozen_nodeFrozen_other {h : Heap} {a b : Nat} (hne : a ≠ b) :
    nodeFrozen (setFrozen h a) b = nodeFrozen h b := by
  unfold nodeFrozen
  rw [setFrozen_other hne]

theorem set_lookup_id {l : Heap} {a : Nat} {n : Node} (hl : l[a]? = some n) :
    l.set a n = l := by
  induction l generalizing a with
  | nil => simp at hl
  | cons m t ih =>
    cases a with
    | zero => rw [List.getElem?_cons_zero] at hl; cases hl; rfl
    | succ j =>
      rw [List.getElem?_cons_succ] at hl
      simp [List.set, ih hl]

theorem setFrozen_eq_set {h : Heap} {a : Nat} {n : Node} (hl : h[a]? = some n) :
    setFrozen h a = h.set a { n with frozen := true } := by
  unfold setFrozen
  rw [hl]

/-- Freezing a node that is already frozen leaves the heap unchanged. -/
theorem setFrozen_noop {h : Heap} {a : Nat} {n : Node} (hl : h[a]? = some n)
    (hf : n.frozen = true) : setFrozen h a = h := by
  rw [setFrozen_eq_set hl]
  have hn : { n with frozen := true } = n := by
    cases n; simp_all
  rw [hn]
  exact set_lookup_id hl

/-! ### The unfrozen-node count, the freezer's termination measure -/

theorem unfrozenCount_pos {h : Heap} {a : Nat} {n : Node} (hl : h[a]? = some n)
    (hf : n.frozen = false) : 1 ≤ unfrozenCount h := by
  induction h generalizing a with
  | nil => simp at hl
  | cons m t ih =>
    cases a with
    | zero =>
      rw [List.getElem?_cons_zero] at hl
      cases hl
      simp [unfrozenCount, hf]
    | succ j =>
      rw [List.getElem?_cons_succ] at hl
      have := ih hl
      simp only [unfrozenCount]
      omega

theorem unfrozenCount_setFrozen {h : Heap} {a : Nat} {n : Node} (hl : h[a]? = some n)
    (hf : n.frozen = false) : unfrozenCount (setFrozen h a) + 1 = unfrozenCount h := by
  rw [setFrozen_eq_set hl]
  induction h generalizing a with
  | nil => simp at hl
  | cons m t ih =>
    cases a with
    | zero =>
      rw [List.getElem?_cons_zero] at hl
      cases hl
      simp [unfrozenCount, hf, List.set]
      omega
    | succ j =>
      rw [List.getElem?_cons_succ] at hl
      have := ih hl
      simp only [unfrozenCount, List.set]
      omega

theorem unfrozenCount_le_of_frEq {h h' : Heap} (e : FrEq h h') :
    unfrozenCount h' ≤ unfrozenCount h := by
  induction e with
  | nil => exact Nat.le_refl _
  | @cons m m' t t' hn _ ih =>
    simp only [unfrozenCount]
    rcases hn with ⟨-, -, hf⟩
    cases hm : m.frozen with
    | true => rw [hf hm]; simp; omega
    | false => cases m'.frozen <;> simp <;> omega

/-! ### Transport of traversal structure along freezing -/

theorem visitProps_ext {n n' : Node} (hk : n'.kind = n.kind) (hf : n'.fields = n.fields) :
    visitProps n' = visitProps n := by
  unfold visitProps
  rw [hk, hf]

theorem visitEdge_of_frEq {h h' : Heap} (e : FrEq h h') {b c : Nat}
    (he : visitEdge h b c) : visitEdge h' b c := by
  obtain ⟨node, k, hl, hm⟩ := he
  obtain ⟨node', hl', hext⟩ := frEq_lookup e hl
  exact ⟨node', k, hl', by rw [visitProps_ext hext.1 hext.2.1]; exact hm⟩

theorem visitEdge_of_frEq_back {h h' : Heap} (e : FrEq h h') {b c : Nat}
    (he : visitEdge h' b c) : visitEdge h b c := by
  obtain ⟨node', k, hl', hm⟩ := he
  obtain ⟨node, hl, hext⟩ := frEq_lookup_back e hl'
  exact ⟨node, k, hl, by rw [← visitProps_ext hext.1 hext.2.1]; exact hm⟩

theorem reachV_of_frEq {h h' : Heap} (e : FrEq h h') {a b : Nat}
    (hr : ReachV h a b) : ReachV h' a b := by
  induction hr with
  | refl => exact ReachV.refl
  | tail _ he ih => exact ReachV.tail ih (visitEdge_of_frEq e he)

theorem reachV_of_frEq_back {h h' : Heap} (e : FrEq h h') {a b : Nat}
    (hr : ReachV h' a b) : ReachV h a b := by
  induction hr with
  | refl => exact ReachV.refl
  | tail _ he ih => exact ReachV.tail ih (visitEdge_of_frEq_back e he)

theorem reachV_trans {h : Heap} {a b c : Nat} (h1 : ReachV h a b) (h2 : ReachV h b c) :
    ReachV h a c := by
  induction h2 with
  | refl => exact h1
  | tail _ he ih => exact ReachV.tail ih he

/-- Every visited reference child of a node is frozen. -/
def ChildrenFrozen (h : Heap) (x : Nat) : Prop :=
  ∀ c, visitEdge h x c → c < h.length → nodeFrozen h c = true

theorem childrenFrozen_of_frEq {h h' : Heap} (e : FrEq h h') {x : Nat}
    (hc : ChildrenFrozen h x) : ChildrenFrozen h' x := by
  intro c hedge hlt
  have hlt' : c < h.length := by rw [frEq_length e]; exact hlt
  exact frEq_frozen e (hc c (visitEdge_of_frEq_back e hedge) hlt')

/-! ### The freezing traversal only freezes nodes in place -/

theorem freezeStep_frEq {recur : Heap → Nat → Option Heap}
    (hrec : ∀ heap a h', recur heap a = some h' → FrEq heap h') :
    ∀ {l : List Val} {heap h' : Heap}, freezeStep recur heap l = some h' → FrEq heap h' := by
  intro l
  induction l with
  | nil =>
    intro heap h' h
    simp only [freezeStep, Option.some.injEq] at h
    rw [← h]
    exact frEq_refl heap
  | cons v rest ih =>
    intro heap h' h
    match v with
    | Val.prim p =>
      rw [freezeStep] at h
      exact ih h
    | Val.ref b =>
      rw [freezeStep] at h
      cases hb : heap[b]? with
      | none => rw [hb] at h; exact ih h
      | some node =>
        rw [hb] at h
        dsimp only at h
        by_cases hf : node.frozen = true
        · rw [if_pos hf] at h; exact ih h
        · rw [if_neg hf] at h
          cases hdf : recur heap b with
          | none => rw [hdf] at h; dsimp only at h; cases h
          | some h1 =>
            rw [hdf] at h
            dsimp only at h
            exact frEq_trans (hrec _ _ _ hdf) (ih h)

theorem deepFreezeF_frEq : ∀ {fuel : Nat} {heap : Heap} {a : Nat} {h' : Heap},
    deepFreezeF fuel heap a = some h' → FrEq heap h' := by
  intro fuel
  induction fuel with
  | zero => intro heap a h' h; simp [deepFreezeF] at h
  | succ fuel ih =>
    intro heap a h' h
    rw [deepFreezeF] at h
    cases hA : heap[a]? with
    | none =>
      rw [hA] at h
      dsimp only at h
      simp only [Option.some.injEq] at h
      rw [← h]
      exact frEq_refl heap
    | some node =>
      rw [hA] at h
      dsimp only at h
      exact frEq_trans (frEq_setFrozen heap a)
        (freezeStep_frEq (fun _ _ _ hx => ih hx) h)

/-! ### Termination: fuel one past the unfrozen-node count always suffices -/

theorem freezeStep_term {recur : Heap → Nat → Option Heap} (C : Nat)
    (hrecE : ∀ heap a h', recur heap a = some h' → FrEq heap h')
    (hrecT : ∀ heap a node, heap[a]? = some node → node.frozen = false →
      unfrozenCount heap ≤ C → ∃ h', recur heap a = some h') :
    ∀ (l : List Val) (heap : Heap), unfrozenCount heap ≤ C →
      ∃ h', freezeStep recur heap l = some h' := by
  intro l
  induction l with
  | nil => intro heap _; exact ⟨heap, rfl⟩
  | cons v rest ih =>
    intro heap hc
    match v with
    | Val.prim p =>
      obtain ⟨h', hh⟩ := ih heap hc
      exact ⟨h', by rw [freezeStep]; exact hh⟩
    | Val.ref b =>
      cases hb : heap[b]? with
      | none =>
        obtain ⟨h', hh⟩ := ih heap hc
        exact ⟨h', by rw [freezeStep, hb]; exact hh⟩
      | some node =>
        cases hf : node.frozen with
        | true =>
          obtain ⟨h', hh⟩ := ih heap hc
          exact ⟨h', by rw [freezeStep, hb]; dsimp only; rw [if_pos hf]; exact hh⟩
        | false =>
          obtain ⟨h1, hdf⟩ := hrecT heap b node hb hf hc
          have hc1 : unfrozenCount h1 ≤ C :=
            le_trans (unfrozenCount_le_of_frEq (hrecE _ _ _ hdf)) hc
          obtain ⟨h', hh⟩ := ih h1 hc1
          refine ⟨h', ?_⟩
          rw [freezeStep, hb]
          dsimp only
          rw [if_neg (by simp [hf]), hdf]
          dsimp only
          exact hh

theorem deepFreezeF_term : ∀ fuel : Nat, ∀ {heap : Heap} {a : Nat} {node : Node},
    heap[a]? = some node → node.frozen = false → unfrozenCount heap ≤ fuel →
    ∃ h', deepFreezeF fuel heap a = some h' := by
  intro fuel
  induction fuel with
  | zero =>
    intro heap a node hl hf hc
    exact absurd hc (by have := unfrozenCount_pos hl hf; omega)
  | succ fuel ih =>
    intro heap a node hl hf hc
    have hdec := unfrozenCount_setFrozen hl hf
    obtain ⟨h', hh⟩ := freezeStep_term fuel (fun _ _ _ hx => deepFreezeF_frEq hx)
      (fun _ _ _ hx hfx hcx => ih hx hfx hcx)
      ((visitProps node).map Prod.snd) (setFrozen heap a) (by omega)
    exact ⟨h', by rw [deepFreezeF, hl]; dsimp only; exact hh⟩

/-! ### The traversal freezes what it visits -/

theorem deepFreezeF_self_frozen {fuel : Nat} {heap : Heap} {a : Nat} {h' : Heap}
    (h : deepFreezeF fuel heap a = some h') (ha : a < heap.length) :
    nodeFrozen h' a = true := by
  cases fuel with
  | zero => simp [deepFreezeF] at h
  | succ fuel =>
    obtain ⟨node, hl⟩ := lookup_exists ha
    rw [deepFreezeF, hl] at h
    dsimp only at h
    exact frEq_frozen (freezeStep_frEq (fun _ _ _ hx => deepFreezeF_frEq hx) h)
      (setFrozen_frozen hl)

theorem freezeStep_refs_frozen {recur : Heap → Nat → Option Heap}
    (hrecE : ∀ heap a h', recur heap a = some h' → FrEq heap h')
    (hrecS : ∀ heap a h', recur heap a = some h' → a < heap.length → nodeFrozen h' a = true) :
    ∀ {l : List Val} {heap h' : Heap}, freezeStep recur heap l = some h' →
      ∀ b, Val.ref b ∈ l → b < heap.length → nodeFrozen h' b = true := by
  intro l
  induction l with
  | nil => intro heap h' _ b hm; simp at hm
  | cons v rest ih =>
    intro heap h' h b hm hlt
    match v with
    | Val.prim p =>
      rw [freezeStep] at h
      rcases List.mem_cons.mp hm with hv | hv
      · cases hv
      · exact ih h b hv hlt
    | Val.ref c =>
      rw [freezeStep] at h
      cases hc : heap[c]? with
      | none =>
        rw [hc] at h
        rcases List.mem_cons.mp hm with hv | hv
        · cases hv; exact absurd hc (by rw [(lookup_exists hlt).choose_spec]; simp)
        · exact ih h b hv hlt
      | some node =>
        rw [hc] at h
        dsimp only at h
        by_cases hf : node.frozen = true
        · rw [if_pos hf] at h
          rcases List.mem_cons.mp hm with hv | hv
          · cases hv
            exact frEq_frozen (freezeStep_frEq hrecE h) (by unfold nodeFrozen; rw [hc]; exact hf)
          · exact ih h b hv hlt
        · rw [if_neg hf] at h
          cases hdf : recur heap c with
          | none => rw [hdf] at h; dsimp only at h; cases h
          | some h1 =>
            rw [hdf] at h
            dsimp only at h
            rcases List.mem_cons.mp hm with hv | hv
            · cases hv
              exact frEq_frozen (freezeStep_frEq hrecE h) (hrecS _ _ _ hdf hlt)
            · exact ih h b hv (by rw [← frEq_length (hrecE _ _ _ hdf)]; exact hlt)

/-- A property walk over values that are all primitives, dangling, or
already frozen does nothing. -/
theorem freezeStep_noop {recur : Heap → Nat → Option Heap} :
    ∀ {l : List Val} {heap : Heap},
      (∀ b node, Val.ref b ∈ l → heap[b]? = some node → node.frozen = true) →
      freezeStep recur heap l = some heap := by
  intro l
  induction l with
  | nil => intro heap _; rfl
  | cons v rest ih =>
    intro heap hall
    match v with
    | Val.prim p =>
      rw [freezeStep]
      exact ih fun b node hm hl => hall b node (List.mem_cons_of_mem _ hm) hl
    | Val.ref c =>
      rw [freezeStep]
      cases hc : heap[c]? with
      | none => exact ih fun b node hm hl => hall b node (List.mem_cons_of_mem _ hm) hl
      | some node =>
        dsimp only
        rw [if_pos (hall c node (List.mem_cons_self _ _) hc)]
        exact ih fun b node hm hl => hall b node (List.mem_cons_of_mem _ hm) hl

/-- Fuel one past the number of unfrozen nodes lets the freezer finish from
any starting node, frozen, unfrozen or dangling — in particular on cyclic
heaps. -/
theorem deepFreezeF_term_any (heap : Heap) (a : Nat) :
    ∃ h', deepFreezeF (unfrozenCount heap + 1) heap a = some h' := by
  cases hl : heap[a]? with
  | none => exact ⟨heap, by rw [deepFreezeF, hl]⟩
  | some node =>
    cases hf : node.frozen with
    | false => exact deepFreezeF_term (unfrozenCount heap + 1) hl hf (by omega)
    | true =>
      obtain ⟨h', hh⟩ := freezeStep_term (unfrozenCount heap)
        (fun _ _ _ hx => deepFreezeF_frEq hx)
        (fun _ _ _ hx hfx hcx => deepFreezeF_term (unfrozenCount heap) hx hfx hcx)
        ((visitProps node).map Prod.snd) (setFrozen heap a)
        (by rw [setFrozen_noop hl hf])
      refine ⟨h', ?_⟩
      rw [deepFreezeF, hl]
      dsimp only
      exact hh

/-- Re-running the freezer on an already-frozen result changes nothing and
needs no fuel beyond one step: every visited child is frozen, so the walk
skips everything. -/
theorem deepFreezeF_idem {fuel fuel' : Nat} {heap : Heap} {a : Nat} {h' : Heap}
    (h : deepFreezeF fuel heap a = some h') :
    deepFreezeF (fuel' + 1) h' a = some h' := by
  cases hl' : h'[a]? with
  | none => rw [deepFreezeF, hl']
  | some n' =>
    have hfr : FrEq heap h' := deepFreezeF_frEq h
    obtain ⟨n, hl, hext⟩ := frEq_lookup_back hfr hl'
    have ha : a < heap.length := lookup_lt hl
    have hself : nodeFrozen h' a = true := deepFreezeF_self_frozen h ha
    have hnf : n'.frozen = true := by unfold nodeFrozen at hself; rw [hl'] at hself; exact hself
    rw [deepFreezeF, hl']
    dsimp only
    rw [setFrozen_noop hl' hnf]
    cases fuel with
    | zero => simp [deepFreezeF] at h
    | succ f =>
      rw [deepFreezeF, hl] at h
      dsimp only at h
      refine freezeStep_noop ?_
      intro b node hm hbl
      rw [visitProps_ext hext.1 hext.2.1] at hm
      have hb : b < (setFrozen heap a).length := by
        rw [setFrozen_length, frEq_length hfr]
        exact lookup_lt hbl
      have hfz := freezeStep_refs_frozen (fun _ _ _ hx => deepFreezeF_frEq hx)
        (fun _ _ _ hx hax => deepFreezeF_self_frozen hx hax) h b hm hb
      unfold nodeFrozen at hfz
      rw [hbl] at hfz
      exact hfz

/-- C6: `deepFreeze` is idempotent and cycle-safe.  With fuel one past the
unfrozen-node count the freezer completes on every heap (self-references
and shared substructure included) and returns its argument; re-freezing
the result succeeds with any positive fuel (an already-frozen node is not
re-traversed) and returns the same heap and the same reference. -/
theorem deepFreeze_idempotent_and_terminates (heap : Heap) (v : Val) :
    ∃ h', deepFreeze (unfrozenCount heap + 1) heap v = some (h', v) ∧
      ∀ fuel, deepFreeze (fuel + 1) h' v = some (h', v) := by
  match v with
  | Val.prim p => exact ⟨heap, rfl, fun _ => rfl⟩
  | Val.ref a =>
    obtain ⟨h', hh⟩ := deepFreezeF_term_any heap a
    refine ⟨h', ?_, fun fuel => ?_⟩
    · unfold deepFreeze
      dsimp only
      rw [hh]
      rfl
    · unfold deepFreeze
      dsimp only
      rw [deepFreezeF_idem hh]
      rfl

/-! ### Newly frozen nodes are children-closed, and only visit-reachable
nodes get frozen -/

theorem freezeStep_closed {recur : Heap → Nat → Option Heap}
    (hrecE : ∀ heap a h', recur heap a = some h' → FrEq heap h')
    (hrecC : ∀ heap a h', recur heap a = some h' →
      ∀ x, nodeFrozen heap x = false → nodeFrozen h' x = true → ChildrenFrozen h' x) :
    ∀ {l : List Val} {heap h' : Heap}, freezeStep recur heap l = some h' →
      ∀ x, nodeFrozen heap x = false → nodeFrozen h' x = true → ChildrenFrozen h' x := by
  intro l
  induction l with
  | nil =>
    intro heap h' h x hx0 hx1
    simp only [freezeStep, Option.some.injEq] at h
    rw [← h] at hx1
    simp [hx0] at hx1
  | cons v rest ih =>
    intro heap h' h x hx0 hx1
    match v with
    | Val.prim p =>
      rw [freezeStep] at h
      exact ih h x hx0 hx1
    | Val.ref b =>
      rw [freezeStep] at h
      cases hb : heap[b]? with
      | none => rw [hb] at h; exact ih h x hx0 hx1
      | some node =>
        rw [hb] at h
        dsimp only at h
        by_cases hf : node.frozen = true
        · rw [if_pos hf] at h; exact ih h x hx0 hx1
        · rw [if_neg hf] at h
          cases hdf : recur heap b with
          | none => rw [hdf] at h; dsimp only at h; cases h
          | some h1 =>
            rw [hdf] at h
            dsimp only at h
            by_cases hx1' : nodeFrozen h1 x = true
            · exact childrenFrozen_of_frEq (freezeStep_frEq hrecE h) (hrecC heap b h1 hdf x hx0 hx1')
            · have hx0'' : nodeFrozen h1 x = false := by
                cases hnf : nodeFrozen h1 x
                · rfl
                · exact absurd hnf hx1'
              exact ih h x hx0'' hx1

theorem deepFreezeF_closed : ∀ fuel : Nat, ∀ {heap : Heap} {a : Nat} {h' : Heap},
    deepFreezeF fuel heap a = some h' →
    ∀ x, nodeFrozen heap x = false → nodeFrozen h' x = true → ChildrenFrozen h' x := by
  intro fuel
  induction fuel with
  | zero => intro heap a h' h; simp [deepFreezeF] at h
  | succ fuel ih =>
    intro heap a h' h x hx0 hx1
    rw [deepFreezeF] at h
    cases hA : heap[a]? with
    | none =>
      rw [hA] at h
      dsimp only at h
      simp only [Option.some.injEq] at h
      rw [← h] at hx1
      simp [hx0] at hx1
    | some node =>
      rw [hA] at h
      dsimp only at h
      by_cases hxa : x = a
      · subst hxa
        intro c hedge hlt
        have hfr1 : FrEq heap (setFrozen heap x) := frEq_setFrozen heap x
        have hfr2 : FrEq (setFrozen heap x) h' := freezeStep_frEq (fun _ _ _ hy => deepFreezeF_frEq hy) h
        obtain ⟨node0, k, hl0, hm0⟩ := visitEdge_of_frEq_back (frEq_trans hfr1 hfr2) hedge
        rw [hA] at hl0
        cases hl0
        have hmm : Val.ref c ∈ (visitProps node).map Prod.snd :=
          List.mem_map.mpr ⟨(k, Val.ref c), hm0, rfl⟩
        have hcl : c < (setFrozen heap x).length := by
          rw [setFrozen_length, frEq_length (frEq_trans hfr1 hfr2)]
          exact hlt
        exact freezeStep_refs_frozen (fun _ _ _ hy => deepFreezeF_frEq hy)
          (fun _ _ _ hy hay => deepFreezeF_self_frozen hy hay) h c hmm hcl
      · have hx0' : nodeFrozen (setFrozen heap a) x = false := by
          rw [setFrozen_nodeFrozen_other fun he => hxa he.symm]
          exact hx0
        exact freezeStep_closed (fun _ _ _ hy => deepFreezeF_frEq hy) (fun _ _ _ hy => ih hy) h x hx0' hx1

theorem freezeStep_sound {recur : Heap → Nat → Option Heap}
    (hrecE : ∀ heap a h', recur heap a = some h' → FrEq heap h')
    (hrecSo : ∀ heap a h', recur heap a = some h' →
      ∀ x, nodeFrozen heap x = false → nodeFrozen h' x = true → ReachV heap a x) :
    ∀ {l : List Val} {heap h' : Heap}, freezeStep recur heap l = some h' →
      ∀ x, nodeFrozen heap x = false → nodeFrozen h' x = true →
        ∃ b, Val.ref b ∈ l ∧ ReachV heap b x := by
  intro l
  induction l with
  | nil =>
    intro heap h' h x hx0 hx1
    simp only [freezeStep, Option.some.injEq] at h
    rw [← h] at hx1
    simp [hx0] at hx1
  | cons v rest ih =>
    intro heap h' h x hx0 hx1
    match v with
    | Val.prim p =>
      rw [freezeStep] at h
      obtain ⟨b, hmem, hr⟩ := ih h x hx0 hx1
      exact ⟨b, List.mem_cons_of_mem _ hmem, hr⟩
    | Val.ref c =>
      rw [freezeStep] at h
      cases hb : heap[c]? with
      | none =>
        rw [hb] at h
        obtain ⟨b, hmem, hr⟩ := ih h x hx0 hx1
        exact ⟨b, List.mem_cons_of_mem _ hmem, hr⟩
      | some node =>
        rw [hb] at h
        dsimp only at h
        by_cases hf : node.frozen = true
        · rw [if_pos hf] at h
          obtain ⟨b, hmem, hr⟩ := ih h x hx0 hx1
          exact ⟨b, List.mem_cons_of_mem _ hmem, hr⟩
        · rw [if_neg hf] at h
          cases hdf : recur heap c with
          | none => rw [hdf] at h; dsimp only at h; cases h
          | some h1 =>
            rw [hdf] at h
            dsimp only at h
            by_cases hx1' : nodeFrozen h1 x = true
            · exact ⟨c, List.mem_cons_self _ _, hrecSo heap c h1 hdf x hx0 hx1'⟩
            · have hx0'' : nodeFrozen h1 x = false := by
                cases hnf : nodeFrozen h1 x
                · rfl
                · exact absurd hnf hx1'
              obtain ⟨b, hmem, hr⟩ := ih h x hx0'' hx1
              exact ⟨b, List.mem_cons_of_mem _ hmem,
                reachV_of_frEq_back (hrecE _ _ _ hdf) hr⟩

theorem deepFreezeF_sound : ∀ fuel : Nat, ∀ {heap : Heap} {a : Nat} {h' : Heap},
    deepFreezeF fuel heap a = some h' →
    ∀ x, nodeFrozen heap x = false → nodeFrozen h' x = true → ReachV heap a x := by
  intro fuel
  induction fuel with
  | zero => intro heap a h' h; simp [deepFreezeF] at h
  | succ fuel ih =>
    intro heap a h' h x hx0 hx1
    rw [deepFreezeF] at h
    cases hA : heap[a]? with
    | none =>
      rw [hA] at h
      dsimp only at h
      simp only [Option.some.injEq] at h
      rw [← h] at hx1
      simp [hx0] at hx1
    | some node =>
      rw [hA] at h
      dsimp only at h
      by_cases hxa : x = a
      · subst hxa
        exact ReachV.refl
      · have hx0' : nodeFrozen (setFrozen heap a) x = false := by
          rw [setFrozen_nodeFrozen_other fun he => hxa he.symm]
          exact hx0
        obtain ⟨b, hmem, hr1⟩ := freezeStep_sound (fun _ _ _ hy => deepFreezeF_frEq hy)
          (fun _ _ _ hy => ih hy) h x hx0' hx1
        obtain ⟨kv, hkv, hsnd⟩ := List.mem_map.mp hmem
        have hedge : visitEdge heap a b := by
          refine ⟨node, kv.1, hA, ?_⟩
          have hkvb : kv = (kv.1, Val.ref b) := by
            cases kv
            simp at hsnd
            simp [hsnd]
          rw [← hkvb]
          exact hkv
        exact reachV_trans (ReachV.tail ReachV.refl hedge)
          (reachV_of_frEq_back (frEq_setFrozen heap a) hr1)

theorem visitProps_subset {node : Node} {kv : String × Val} (h : kv ∈ visitProps node) :
    kv ∈ node.fields := by
  unfold visitProps at h
  by_cases hk : (node.kind == NodeKind.callable) = true
  · rw [if_pos hk] at h
    exact List.mem_of_mem_filter h
  · rw [if_neg hk] at h
    exact h

theorem visitProps_non_callable {node : Node} (h : node.kind ≠ NodeKind.callable) :
    visitProps node = node.fields := by
  unfold visitProps
  rw [if_neg (by simp [h])]

theorem wfHeap_ref {heap : Heap} (hwf : wfHeap heap = true) {b : Nat} {node : Node}
    {k : String} {c : Nat} (hl : heap[b]? = some node)
    (hm : (k, Val.ref c) ∈ node.fields) : c < heap.length := by
  unfold wfHeap at hwf
  rw [List.all_eq_true] at hwf
  have h1 := hwf node (List.getElem?_mem hl)
  rw [List.all_eq_true] at h1
  have h2 := h1 (k, Val.ref c) hm
  simpa using h2

/-- C2 (amended): after `deepFreeze` completes on a node of a well-formed
heap, every node reachable along visited property edges is frozen —
provided that every node that was already frozen before the call had, along
reachable edges, only frozen children.  (The unamended claim, which also
covers pre-frozen interior nodes with unfrozen children, is refuted by
`deepFreeze_prefrozen_counterexample`: the traversal does not re-enter an
already-frozen node.) -/
theorem deepFreeze_freezes_reachable (fuel : Nat) (heap : Heap) (a : Nat) (h' : Heap)
    (hwf : wfHeap heap = true) (ha : a < heap.length)
    (hpre : ∀ b, ReachV heap a b → nodeFrozen heap b = true →
      ∀ c, visitEdge heap b c → nodeFrozen heap c = true)
    (hrun : deepFreezeF fuel heap a = some h') :
    ∀ b, ReachV heap a b → nodeFrozen h' b = true := by
  intro b hb
  induction hb with
  | refl => exact deepFreezeF_self_frozen hrun ha
  | @tail b0 c0 hab hedge ih =>
    obtain ⟨node, k, hl, hm⟩ := hedge
    have hc : c0 < heap.length := wfHeap_ref hwf hl (visitProps_subset hm)
    cases hfb : nodeFrozen heap b0 with
    | true =>
      exact frEq_frozen (deepFreezeF_frEq hrun) (hpre b0 hab hfb c0 ⟨node, k, hl, hm⟩)
    | false =>
      have hclosed := deepFreezeF_closed fuel hrun b0 hfb ih
      exact hclosed c0 (visitEdge_of_frEq (deepFreezeF_frEq hrun) ⟨node, k, hl, hm⟩)
        (by rw [← frEq_length (deepFreezeF_frEq hrun)]; exact hc)

/-- The heap of the C2 counterexample: the root references a node that is
already (shallowly) frozen and whose own child is not frozen. -/
def heapC2 : Heap :=
  [⟨NodeKind.object, false, [("x", Val.ref 1)]⟩,
   ⟨NodeKind.object, true, [("y", Val.ref 2)]⟩,
   ⟨NodeKind.object, false, []⟩]

/-- The heap `deepFreeze` leaves behind on `heapC2`. -/
def heapC2res : Heap :=
  [⟨NodeKind.object, true, [("x", Val.ref 1)]⟩,
   ⟨NodeKind.object, true, [("y", Val.ref 2)]⟩,
   ⟨NodeKind.object, false, []⟩]

/-- C2 (counterexample): freezing the root of `heapC2` completes, node `2`
is reachable from the root through own properties, yet it is left
unfrozen — the already-frozen interior node `1` is not re-entered, so its
unfrozen child is never visited.  This refutes the claim for values with a
pre-frozen interior node whose children are not frozen. -/
theorem deepFreeze_prefrozen_counterexample :
    deepFreezeF 4 heapC2 0 = some heapC2res ∧
    ReachV heapC2res 0 2 ∧ nodeFrozen heapC2res 2 = false := by
  refine ⟨by decide, ?_, by decide⟩
  have e01 : visitEdge heapC2res 0 1 :=
    ⟨⟨NodeKind.object, true, [("x", Val.ref 1)]⟩, "x", rfl, by decide⟩
  have e12 : visitEdge heapC2res 1 2 :=
    ⟨⟨NodeKind.object, true, [("y", Val.ref 2)]⟩, "y", rfl, by decide⟩
  exact ReachV.tail (ReachV.tail ReachV.refl e01) e12

/-- Witness heap for the amended C2: a root with one unfrozen child, nothing
pre-frozen. -/
def heapC2w : Heap :=
  [⟨NodeKind.object, false, [("x", Val.ref 1)]⟩, ⟨NodeKind.object, false, []⟩]

theorem heapC2w_unfrozen : ∀ b, nodeFrozen heapC2w b = false := by
  intro b
  match b with
  | 0 => rfl
  | 1 => rfl
  | n + 2 => rfl

/-- Witness for the amended C2 at a concrete input: both nodes of `heapC2w`
end up frozen. -/
theorem deepFreeze_freezes_reachable_witness :
    nodeFrozen [⟨NodeKind.object, true, [("x", Val.ref 1)]⟩,
      (⟨NodeKind.object, true, []⟩ : Node)] 1 = true :=
  deepFreeze_freezes_reachable 3 heapC2w 0
    [⟨NodeKind.object, true, [("x", Val.ref 1)]⟩, ⟨NodeKind.object, true, []⟩]
    (by decide) (by decide)
    (fun b _ hf => absurd (heapC2w_unfrozen b ▸ hf) (by decide))
    (by decide) 1
    (ReachV.tail ReachV.refl
      ⟨⟨NodeKind.object, false, [("x", Val.ref 1)]⟩, "x", rfl, by decide⟩)

/-- C7: the freezing traversal touches only nodes reachable along visited
property edges — on callables the reserved identity properties `caller`,
`callee` and `arguments` are not visited (`visitProps`), so a node
referenced only there is left exactly as it was; and on a non-callable root
no own property is skipped: every existing referenced child ends up
frozen. -/
theorem deepFreeze_reserved_skipped (fuel : Nat) (heap : Heap) (a : Nat) (h' : Heap)
    (hrun : deepFreezeF fuel heap a = some h') :
    (∀ x, ¬ ReachV heap a x → nodeFrozen h' x = nodeFrozen heap x) ∧
    (∀ node k b nb, heap[a]? = some node → node.kind ≠ NodeKind.callable →
      (k, Val.ref b) ∈ node.fields → heap[b]? = some nb → nodeFrozen h' b = true) := by
  constructor
  · intro x hnr
    cases hx : nodeFrozen heap x with
    | true => exact frEq_frozen (deepFreezeF_frEq hrun) hx
    | false =>
      cases hx' : nodeFrozen h' x with
      | false => rfl
      | true => exact absurd (deepFreezeF_sound fuel hrun x hx hx') hnr
  · intro node k b nb hl hnc hm hbl
    cases fuel with
    | zero => simp [deepFreezeF] at hrun
    | succ f =>
      rw [deepFreezeF, hl] at hrun
      dsimp only at hrun
      have hmm : Val.ref b ∈ (visitProps node).map Prod.snd := by
        rw [visitProps_non_callable hnc]
        exact List.mem_map.mpr ⟨(k, Val.ref b), hm, rfl⟩
      exact freezeStep_refs_frozen (fun _ _ _ hy => deepFreezeF_frEq hy)
        (fun _ _ _ hy hay => deepFreezeF_self_frozen hy hay) hrun b hmm
        (by rw [setFrozen_length]; exact lookup_lt hbl)

/-- A callable whose `caller` property references node 1 and whose `x`
property references node 2. -/
def heapC7 : Heap :=
  [⟨NodeKind.callable, false, [("caller", Val.ref 1), ("x", Val.ref 2)]⟩,
   ⟨NodeKind.object, false, []⟩,
   ⟨NodeKind.object, false, []⟩]

theorem heapC7_no_reach_1 : ¬ ReachV heapC7 0 1 := by
  intro h
  have key : ∀ b, ReachV heapC7 0 b → b = 0 ∨ b = 2 := by
    intro b hb
    induction hb with
    | refl => exact Or.inl rfl
    | @tail b0 c0 _ hedge ih =>
      obtain ⟨node, k, hl, hm⟩ := hedge
      rcases ih with h0 | h2
      · subst h0
        rw [show heapC7[(0 : Nat)]? =
          some ⟨NodeKind.callable, false, [("caller", Val.ref 1), ("x", Val.ref 2)]⟩ from rfl]
          at hl
        cases hl
        have hv : visitProps
            (⟨NodeKind.callable, false, [("caller", Val.ref 1), ("x", Val.ref 2)]⟩ : Node) =
            [("x", Val.ref 2)] := by decide
        rw [hv] at hm
        simp at hm
        exact Or.inr hm.2
      · subst h2
        rw [show heapC7[(2 : Nat)]? = some ⟨NodeKind.object, false, []⟩ from rfl] at hl
        cases hl
        simp [visitProps] at hm
  rcases key 1 h with h | h <;> cases h

/-- Witness for C7 at a concrete input: after freezing the callable root of
`heapC7`, the `caller`-referenced node 1 is untouched (still unfrozen). -/
theorem deepFreeze_reserved_skipped_witness :
    nodeFrozen [⟨NodeKind.callable, true, [("caller", Val.ref 1), ("x", Val.ref 2)]⟩,
      ⟨NodeKind.object, false, []⟩, (⟨NodeKind.object, true, []⟩ : Node)] 1 =
      nodeFrozen heapC7 1 :=
  (deepFreeze_reserved_skipped 4 heapC7 0
    [⟨NodeKind.callable, true, [("caller", Val.ref 1), ("x", Val.ref 2)]⟩,
     ⟨NodeKind.object, false, []⟩, ⟨NodeKind.object, true, []⟩]
    (by decide)).1 1 heapC7_no_reach_1

/-! ### Cloning: freshness and structural equality -/

theorem lookup_append_mid (l1 : Heap) (n : Node) (l2 : Heap) :
    (l1 ++ n :: l2)[l1.length]? = some n := by
  induction l1 with
  | nil => simp
  | cons m t ih => simpa using ih

theorem reachF_first_step {h : Heap} {a b : Nat} (hr : ReachF h a b) :
    a = b ∨ ∃ node k c, h[a]? = some node ∧ (k, Val.ref c) ∈ node.fields ∧ ReachF h c b := by
  induction hr with
  | refl => exact Or.inl rfl
  | @tail b0 c0 node k hr0 hl hm ih =>
    rcases ih with heq | ⟨node0, k0, c1, hl0, hm0, hr1⟩
    · subst heq
      exact Or.inr ⟨node, k, c0, hl, hm, ReachF.refl c0⟩
    · exact Or.inr ⟨node0, k0, c1, hl0, hm0, ReachF.tail hr1 hl hm⟩

theorem jsonVal_append {heap : Heap} {v : Val} {n : Nat} (e : Heap)
    (hj : JsonVal heap v n) : JsonVal (heap ++ e) v n := by
  induction hj with
  | prim hp => exact JsonVal.prim hp
  | @node a m node hl hk hch ih =>
    exact JsonVal.node (by rw [lookup_append_left e (lookup_lt hl)]; exact hl) hk
      fun kv hkv => ih kv hkv

theorem jsonVal_reach_json {heap : Heap} (e : Heap) :
    ∀ {a b : Nat}, ReachF (heap ++ e) a b →
      ∀ m, JsonVal heap (Val.ref a) m → ∃ m', JsonVal heap (Val.ref b) m' := by
  intro a b hr
  induction hr with
  | refl => exact fun m hj => ⟨m, hj⟩
  | @tail b0 c0 node k hr0 hl hm ih =>
    intro m hj
    obtain ⟨m', hj'⟩ := ih m hj
    cases hj' with
    | node hl0 hk0 hch0 =>
      rename_i mm node0
      have hb0 : b0 < heap.length := lookup_lt hl0
      rw [lookup_append_left e hb0, hl0] at hl
      cases hl
      exact ⟨mm, hch0 (k, Val.ref c0) hm⟩

theorem jsonVal_reach_lt {heap : Heap} {v : Val} {n : Nat} (e : Heap)
    (hj : JsonVal heap v n) {b : Nat} (hr : VReach (heap ++ e) v b) : b < heap.length := by
  match v with
  | Val.prim p => exact absurd hr (fun h => h)
  | Val.ref a =>
    obtain ⟨m', hj'⟩ := jsonVal_reach_json e hr n hj
    cases hj' with
    | node hl _ _ => exact lookup_lt hl

theorem cloneFieldsStep_fresh {recur : Heap → Val → Option (Heap × Val)} {sc : Bool}
    {kind : NodeKind}
    (hrec : ∀ heap v h' v', recur heap v = some (h', v') →
      (∃ e, h' = heap ++ e) ∧
      ∀ ext b, VReach (h' ++ ext) v' b → heap.length ≤ b ∧ b < h'.length) :
    ∀ (l : List (String × Val)) (heap h' : Heap) (l' : List (String × Val)),
      cloneFieldsStep recur sc kind heap l = some (h', l') →
      (∃ e, h' = heap ++ e) ∧
      ∀ ext b kv, kv ∈ l' → VReach (h' ++ ext) kv.2 b → heap.length ≤ b ∧ b < h'.length := by
  intro l
  induction l with
  | nil =>
    intro heap h' l' h
    rw [cloneFieldsStep] at h
    simp only [Option.some.injEq, Prod.mk.injEq] at h
    obtain ⟨h1, h2⟩ := h
    subst h1
    subst h2
    exact ⟨⟨[], by simp⟩, fun ext b kv hm => by simp at hm⟩
  | cons kv0 rest ih =>
    intro heap h' l' h
    obtain ⟨k, v0⟩ := kv0
    match v0 with
    | Val.prim p =>
      rw [cloneFieldsStep] at h
      by_cases hcond : (!sc && p == Prim.undef) = true
      · rw [if_pos hcond] at h
        cases hrest : cloneFieldsStep recur sc kind heap rest with
        | none => rw [hrest] at h; dsimp only at h; cases h
        | some pr =>
          obtain ⟨h1, rest'⟩ := pr
          rw [hrest] at h
          dsimp only at h
          simp only [Option.some.injEq, Prod.mk.injEq] at h
          obtain ⟨hh1, hl'⟩ := h
          subst hh1
          obtain ⟨hpre, hfr⟩ := ih heap h1 rest' hrest
          refine ⟨hpre, ?_⟩
          intro ext b kv hm hv
          rw [← hl'] at hm
          by_cases hak : (kind == NodeKind.array) = true
          · rw [if_pos hak] at hm
            rcases List.mem_cons.mp hm with he | he
            · subst he; exact absurd hv (fun hx => hx)
            · exact hfr ext b kv he hv
          · rw [if_neg hak] at hm
            exact hfr ext b kv hm hv
      · rw [if_neg hcond] at h
        cases hrest : cloneFieldsStep recur sc kind heap rest with
        | none => rw [hrest] at h; dsimp only at h; cases h
        | some pr =>
          obtain ⟨h1, rest'⟩ := pr
          rw [hrest] at h
          dsimp only at h
          simp only [Option.some.injEq, Prod.mk.injEq] at h
          obtain ⟨hh1, hl'⟩ := h
          subst hh1
          obtain ⟨hpre, hfr⟩ := ih heap h1 rest' hrest
          refine ⟨hpre, ?_⟩
          intro ext b kv hm hv
          rw [← hl'] at hm
          rcases List.mem_cons.mp hm with he | he
          · subst he; exact absurd hv (fun hx => hx)
          · exact hfr ext b kv he hv
    | Val.ref c =>
      rw [cloneFieldsStep] at h
      cases hc : heap[c]? with
      | none => rw [hc] at h; dsimp only at h; cases h
      | some node =>
        rw [hc] at h
        dsimp only at h
        by_cases hck : (node.kind == NodeKind.callable) = true
        · rw [if_pos hck] at h
          by_cases hsc : sc = true
          · rw [if_pos hsc] at h; cases h
          · rw [if_neg hsc] at h
            cases hrest : cloneFieldsStep recur sc kind heap rest with
            | none => rw [hrest] at h; dsimp only at h; cases h
            | some pr =>
              obtain ⟨h1, rest'⟩ := pr
              rw [hrest] at h
              dsimp only at h
              simp only [Option.some.injEq, Prod.mk.injEq] at h
              obtain ⟨hh1, hl'⟩ := h
              subst hh1
              obtain ⟨hpre, hfr⟩ := ih heap h1 rest' hrest
              refine ⟨hpre, ?_⟩
              intro ext b kv hm hv
              rw [← hl'] at hm
              by_cases hak : (kind == NodeKind.array) = true
              · rw [if_pos hak] at hm
                rcases List.mem_cons.mp hm with he | he
                · subst he; exact absurd hv (fun hx => hx)
                · exact hfr ext b kv he hv
              · rw [if_neg hak] at hm
                exact hfr ext b kv hm hv
        · rw [if_neg hck] at h
          cases hrc : recur heap (Val.ref c) with
          | none => rw [hrc] at h; dsimp only at h; cases h
          | some pr1 =>
            obtain ⟨h1, v'⟩ := pr1
            rw [hrc] at h
            dsimp only at h
            cases hrest : cloneFieldsStep recur sc kind h1 rest with
            | none => rw [hrest] at h; dsimp only at h; cases h
            | some pr2 =>
              obtain ⟨h2, rest'⟩ := pr2
              rw [hrest] at h
              dsimp only at h
              simp only [Option.some.injEq, Prod.mk.injEq] at h
              obtain ⟨hh2, hl'⟩ := h
              subst hh2
              obtain ⟨⟨e1, he1⟩, hfr1⟩ := hrec heap (Val.ref c) h1 v' hrc
              obtain ⟨⟨e2, he2⟩, hfr2⟩ := ih h1 h2 rest' hrest
              have hlen1 : heap.length ≤ h1.length := by
                rw [he1, List.length_append]; omega
              refine ⟨⟨e1 ++ e2, by rw [he2, he1, List.append_assoc]⟩, ?_⟩
              intro ext b kv hm hv
              rw [← hl'] at hm
              rcases List.mem_cons.mp hm with he | he
              · subst he
                have hhe : h2 ++ ext = h1 ++ (e2 ++ ext) := by
                  rw [he2, List.append_assoc]
                rw [hhe] at hv
                obtain ⟨hb1, hb2⟩ := hfr1 (e2 ++ ext) b hv
                have : h1.length ≤ h2.length := by
                  rw [he2, List.length_append]; omega
                exact ⟨hb1, by omega⟩
              · obtain ⟨hb1, hb2⟩ := hfr2 ext b kv he hv
                exact ⟨by omega, hb2⟩

theorem cloneF_fresh : ∀ (fuel : Nat) (sc : Bool) (heap : Heap) (v : Val) (h' : Heap) (v' : Val),
    cloneF sc fuel heap v = some (h', v') →
    (∃ e, h' = heap ++ e) ∧
    ∀ ext b, VReach (h' ++ ext) v' b → heap.length ≤ b ∧ b < h'.length := by
  intro fuel
  induction fuel with
  | zero => intro sc heap v h' v' h; simp [cloneF] at h
  | succ fuel ih =>
    intro sc heap v h' v' h
    match v with
    | Val.prim p =>
      rw [cloneF] at h
      by_cases hcond : (!sc && p == Prim.undef) = true
      · rw [if_pos hcond] at h; cases h
      · rw [if_neg hcond] at h
        simp only [Option.some.injEq, Prod.mk.injEq] at h
        obtain ⟨hh, hv⟩ := h
        subst hh
        subst hv
        exact ⟨⟨[], by simp⟩, fun ext b hv => absurd hv (fun hx => hx)⟩
    | Val.ref a =>
      rw [cloneF] at h
      cases hl : heap[a]? with
      | none => rw [hl] at h; dsimp only at h; cases h
      | some node =>
        rw [hl] at h
        dsimp only at h
        by_cases hck : (node.kind == NodeKind.callable) = true
        · rw [if_pos hck] at h; cases h
        · rw [if_neg hck] at h
          cases hcf : cloneFieldsStep (cloneF sc fuel) sc node.kind heap node.fields with
          | none => rw [hcf] at h; dsimp only at h; cases h
          | some pr =>
            obtain ⟨h1, fields'⟩ := pr
            rw [hcf] at h
            dsimp only at h
            simp only [Option.some.injEq, Prod.mk.injEq] at h
            obtain ⟨hh, hv⟩ := h
            subst hv
            obtain ⟨⟨e1, he1⟩, hfr⟩ :=
              cloneFieldsStep_fresh (fun hp vv hp' vv' hx => ih sc hp vv hp' vv' hx)
                node.fields heap h1 fields' hcf
            have hlen1 : heap.length ≤ h1.length := by
              rw [he1, List.length_append]; omega
            have hlen' : h'.length = h1.length + 1 := by
              rw [← hh, List.length_append]; rfl
            refine ⟨⟨e1 ++ [⟨node.kind, false, fields'⟩], by rw [← hh, he1, List.append_assoc]⟩, ?_⟩
            intro ext b hv
            have hform : h' ++ ext = h1 ++ (⟨node.kind, false, fields'⟩ :: ext) := by
              rw [← hh, List.append_assoc]
              rfl
            rw [hform] at hv
            rcases reachF_first_step hv with heq | ⟨node1, k, c, hl1, hm1, hr1⟩
            · subst heq
              omega
            · rw [lookup_append_mid h1 _ ext] at hl1
              cases hl1
              have := hfr (⟨node.kind, false, fields'⟩ :: ext) b (k, Val.ref c)
                hm1 hr1
              omega

theorem cloneFieldsStep_json {recur : Heap → Val → Option (Heap × Val)} {sc : Bool}
    {kind : NodeKind} {n : Nat}
    (hrecJ : ∀ heap v, JsonVal heap v n →
      ∃ h' v', recur heap v = some (h', v') ∧ (∃ e, h' = heap ++ e) ∧
        ∀ ext, DeepEq (h' ++ ext) (h' ++ ext) v v') :
    ∀ (l : List (String × Val)) (heap : Heap), (∀ kv, kv ∈ l → JsonVal heap kv.2 n) →
      ∃ h1 l', cloneFieldsStep recur sc kind heap l = some (h1, l') ∧
        (∃ e, h1 = heap ++ e) ∧
        ∀ ext, DeepEqFields (h1 ++ ext) (h1 ++ ext) l l' := by
  intro l
  induction l with
  | nil =>
    intro heap _
    exact ⟨heap, [], rfl, ⟨[], by simp⟩, fun ext => DeepEqFields.nil _ _⟩
  | cons kv0 rest ih =>
    intro heap hall
    obtain ⟨k, v0⟩ := kv0
    have hhead : JsonVal heap v0 n := hall (k, v0) (List.mem_cons_self _ _)
    match v0 with
    | Val.prim p =>
      have hp : p ≠ Prim.undef := by cases hhead with | prim hp => exact hp
      obtain ⟨h1, rest', hrest, hpre, hdeqf⟩ :=
        ih heap fun kv hm => hall kv (List.mem_cons_of_mem _ hm)
      have hcond : (!sc && p == Prim.undef) = false := by
        have hbeq : (p == Prim.undef) = false := by
          cases hb : p == Prim.undef
          · rfl
          · exact absurd (eq_of_beq hb) hp
        simp [hbeq]
      refine ⟨h1, (k, Val.prim p) :: rest', ?_, hpre, fun ext =>
        DeepEqFields.cons (DeepEq.prim _ _ p) (hdeqf ext)⟩
      rw [cloneFieldsStep, hcond, hrest]
      rfl
    | Val.ref b =>
      cases hhead with
      | @node _ m node hl hk hch =>
        obtain ⟨h1, v', hrc, ⟨e1, he1⟩, hdeq⟩ :=
          hrecJ heap (Val.ref b) (JsonVal.node hl hk hch)
        obtain ⟨h2, rest', hrest, ⟨e2, he2⟩, hdeqf⟩ :=
          ih h1 fun kv hm => he1 ▸ jsonVal_append e1 (hall kv (List.mem_cons_of_mem _ hm))
        refine ⟨h2, (k, v') :: rest', ?_,
          ⟨e1 ++ e2, by rw [he2, he1, List.append_assoc]⟩, ?_⟩
        · rw [cloneFieldsStep, hl]
          dsimp only
          rw [if_neg (by simp [hk]), hrc]
          dsimp only
          rw [hrest]
        · intro ext
          refine DeepEqFields.cons ?_ (hdeqf ext)
          have hhe : h2 ++ ext = h1 ++ (e2 ++ ext) := by rw [he2, List.append_assoc]
          rw [hhe]
          exact hdeq (e2 ++ ext)

theorem cloneF_json : ∀ (fuel n : Nat) (sc : Bool) (heap : Heap) (v : Val),
    JsonVal heap v n → n < fuel →
    ∃ h' v', cloneF sc fuel heap v = some (h', v') ∧ (∃ e, h' = heap ++ e) ∧
      ∀ ext, DeepEq (h' ++ ext) (h' ++ ext) v v' := by
  intro fuel
  induction fuel with
  | zero => intro n sc heap v _ hn; omega
  | succ fuel ih =>
    intro n sc heap v hj hn
    match v with
    | Val.prim p =>
      have hp : p ≠ Prim.undef := by cases hj with | prim hp => exact hp
      have hcond : (!sc && p == Prim.undef) = false := by
        have hbeq : (p == Prim.undef) = false := by
          cases hb : p == Prim.undef
          · rfl
          · exact absurd (eq_of_beq hb) hp
        simp [hbeq]
      refine ⟨heap, Val.prim p, ?_, ⟨[], by simp⟩, fun ext => DeepEq.prim _ _ p⟩
      rw [cloneF, hcond]
      rfl
    | Val.ref a =>
      cases hj with
      | @node _ m node hl hk hch =>
        obtain ⟨h1, fields', hcf, ⟨e1, he1⟩, hdeqf⟩ :=
          cloneFieldsStep_json (fun hp vv hjv => ih m sc hp vv hjv (by omega))
            node.fields heap hch
        refine ⟨h1 ++ [⟨node.kind, false, fields'⟩], Val.ref h1.length, ?_, ?_, ?_⟩
        · rw [cloneF, hl]
          dsimp only
          rw [if_neg (by simp [hk]), hcf]
        · exact ⟨e1 ++ [⟨node.kind, false, fields'⟩], by rw [he1, List.append_assoc]⟩
        · intro ext
          have hform : (h1 ++ [⟨node.kind, false, fields'⟩]) ++ ext =
              h1 ++ ((⟨node.kind, false, fields'⟩ : Node) :: ext) := by
            rw [List.append_assoc]
            rfl
          rw [hform]
          refine @DeepEq.node _ _ _ _ node ⟨node.kind, false, fields'⟩ ?_ ?_ rfl ?_
          · have ha : a < heap.length := lookup_lt hl
            have hre : h1 ++ ((⟨node.kind, false, fields'⟩ : Node) :: ext) =
                heap ++ (e1 ++ (⟨node.kind, false, fields'⟩ : Node) :: ext) := by
              rw [he1, List.append_assoc]
            rw [hre, lookup_append_left _ ha]
            exact hl
          · exact lookup_append_mid h1 _ ext
          · exact hdeqf ((⟨node.kind, false, fields'⟩ : Node) :: ext)

/-- C5: on acyclic JSON-like values (primitives, plain objects with string
keys, arrays — `JsonVal`), `deepClone` (in either mode: host
`structuredClone` present or the JSON round-trip fallback) succeeds and
returns a value deeply equal to the original that shares no composite
(heap node) with it: the reachable address sets of original and clone are
disjoint. -/
theorem deepClone_correct (hasSC : Bool) (fuel n : Nat) (heap : Heap) (v : Val)
    (hjson : JsonVal heap v n) (hfuel : n < fuel) :
    ∃ h' v', deepClone hasSC fuel heap v = some (h', v') ∧
      DeepEq h' h' v v' ∧
      ∀ b, VReach h' v' b → VReach h' v b → False := by
  have hdc : deepClone hasSC = cloneF hasSC := by cases hasSC <;> rfl
  obtain ⟨h', v', heq, ⟨e, he⟩, hdeq⟩ := cloneF_json fuel n hasSC heap v hjson hfuel
  obtain ⟨-, hfresh⟩ := cloneF_fresh fuel hasSC heap v h' v' heq
  refine ⟨h', v', by rw [hdc]; exact heq, ?_, ?_⟩
  · have hd := hdeq []
    rwa [List.append_nil] at hd
  · intro b h1 h2
    have h1' : VReach (h' ++ []) v' b := by rwa [List.append_nil]
    have hge : heap.length ≤ b := (hfresh [] b h1').1
    have hlt : b < heap.length := by
      rw [he] at h2
      exact jsonVal_reach_lt e hjson h2
    omega

/-- The witness value graph for C5: an object holding a number and an
array. -/
def heapC5w : Heap :=
  [⟨NodeKind.object, false, [("x", Val.prim (Prim.pint 1)), ("y", Val.ref 1)]⟩,
   ⟨NodeKind.array, false, [("0", Val.prim (Prim.pint 2))]⟩]

theorem heapC5w_json : JsonVal heapC5w (Val.ref 0) 2 := by
  refine JsonVal.node rfl (by decide) ?_
  intro kv hkv
  rcases List.mem_cons.mp hkv with h | h
  · subst h
    exact JsonVal.prim (by decide)
  · rcases List.mem_cons.mp h with h2 | h2
    · subst h2
      refine JsonVal.node rfl (by decide) ?_
      intro kv2 hkv2
      rcases List.mem_cons.mp hkv2 with h3 | h3
      · subst h3
        exact JsonVal.prim (by decide)
      · simp at h3
    · simp at h2

/-- Witness for C5 at a concrete input. -/
theorem deepClone_correct_witness :
    ∃ h' v', deepClone false 3 heapC5w (Val.ref 0) = some (h', v') ∧
      DeepEq h' h' (Val.ref 0) v' ∧
      ∀ b, VReach h' v' b → VReach h' (Val.ref 0) b → False :=
  deepClone_correct false 3 2 heapC5w (Val.ref 0) heapC5w_json (by decide)

/-- C1: when `naiveCloneAndMutate` returns a value (the clone succeeded and
the mutation returned normally), the value is exactly the mutation applied
to the `deepClone` of the input, and the original value graph is untouched:
every pre-existing heap node is unchanged, so `v` is deeply equal to its
pre-call state. -/
theorem naiveCloneAndMutate_isolated (hasSC : Bool) (fuel : Nat) (heap : Heap) (v : Val)
    (m : MutatorFn) (h2 : Heap) (c : Val) (hm : LocalMutator m)
    (hres : naiveCloneAndMutate hasSC fuel heap v m = (h2, some c)) :
    heap.length ≤ h2.length ∧ (∀ b, b < heap.length → h2[b]? = heap[b]?) ∧
    ∃ h1, deepClone hasSC fuel heap v = some (h1, c) ∧ m h1 c = (h2, true) := by
  have hdc : deepClone hasSC = cloneF hasSC := by cases hasSC <;> rfl
  unfold naiveCloneAndMutate at hres
  cases hcl : deepClone hasSC fuel heap v with
  | none => rw [hcl] at hres; simp at hres
  | some pr =>
    obtain ⟨h1, clone⟩ := pr
    rw [hcl] at hres
    dsimp only at hres
    cases hmut : m h1 clone with
    | mk h2' ok =>
      rw [hmut] at hres
      cases ok with
      | false =>
        dsimp only at hres
        simp at hres
      | true =>
        dsimp only at hres
        simp only [Prod.mk.injEq, Option.some.injEq] at hres
        obtain ⟨hh2, hc⟩ := hres
        subst hh2
        subst hc
        obtain ⟨⟨e, he⟩, hfresh⟩ :=
          cloneF_fresh fuel hasSC heap v h1 clone (by rw [← hdc]; exact hcl)
        have hlen1 : heap.length ≤ h1.length := by
          rw [he, List.length_append]; omega
        obtain ⟨hmlen, hmun⟩ := hm h1 clone
        rw [hmut] at hmlen hmun
        dsimp only at hmlen hmun
        refine ⟨by omega, ?_, h1, rfl, hmut⟩
        intro b hb
        have hnr : ¬ VReach h1 clone b := by
          intro hv
          have hv' : VReach (h1 ++ []) clone b := by rwa [List.append_nil]
          have := (hfresh [] b hv').1
          omega
        rw [hmun b (by omega) hnr, he, lookup_append_left e hb]

/-- The C1/C4 witness graph: one object `{a: 1}`. -/
def heapW1 : Heap := [⟨NodeKind.object, false, [("a", Val.prim (Prim.pint 1))]⟩]

/-- A mutation function writing `a := 42` on (the node referenced by) its
draft argument and returning normally. -/
def mutSetA : MutatorFn := fun h v =>
  match v with
  | Val.ref r =>
    match h[r]? with
    | some n => (h.set r { n with fields := [("a", Val.prim (Prim.pint 42))] }, true)
    | none => (h, true)
  | Val.prim _ => (h, true)

theorem mutSetA_local : LocalMutator mutSetA := by
  intro heap v
  constructor
  · match v with
    | Val.prim p => exact Nat.le_refl _
    | Val.ref r =>
      cases hl : heap[r]? with
      | none => simp [mutSetA, hl]
      | some n => simp [mutSetA, hl]
  · intro b hb hnr
    match v with
    | Val.prim p => rfl
    | Val.ref r =>
      cases hl : heap[r]? with
      | none => simp [mutSetA, hl]
      | some n =>
        have hbr : r ≠ b := by
          intro he
          exact hnr (by rw [← he]; show ReachF heap r r; exact ReachF.refl r)
        simp [mutSetA, hl, List.getElem?_set_ne hbr]

/-- Witness for C1 at a concrete input: the original node is untouched
after a clone-and-mutate that writes `a := 42` on the draft. -/
theorem naiveCloneAndMutate_isolated_witness :
    ([⟨NodeKind.object, false, [("a", Val.prim (Prim.pint 1))]⟩,
      (⟨NodeKind.object, false, [("a", Val.prim (Prim.pint 42))]⟩ : Node)] : Heap)[0]? =
      heapW1[0]? :=
  (naiveCloneAndMutate_isolated false 3 heapW1 (Val.ref 0) mutSetA
    [⟨NodeKind.object, false, [("a", Val.prim (Prim.pint 1))]⟩,
     ⟨NodeKind.object, false, [("a", Val.prim (Prim.pint 42))]⟩]
    (Val.ref 1) mutSetA_local (by decide)).2.1 0 (by decide)

/-- C4: when the mutation function throws (or the clone itself fails),
`naiveCloneAndMutate` produces no value (`none`) and the original value
graph is untouched: every pre-existing heap node is unchanged, so `v` is
deeply equal to its pre-call state — the operation fails completely with
no partial state. -/
theorem naiveCloneAndMutate_throw_unchanged (hasSC : Bool) (fuel : Nat) (heap : Heap)
    (v : Val) (m : MutatorFn) (h2 : Heap) (hm : LocalMutator m)
    (hres : naiveCloneAndMutate hasSC fuel heap v m = (h2, none)) :
    heap.length ≤ h2.length ∧ ∀ b, b < heap.length → h2[b]? = heap[b]? := by
  have hdc : deepClone hasSC = cloneF hasSC := by cases hasSC <;> rfl
  unfold naiveCloneAndMutate at hres
  cases hcl : deepClone hasSC fuel heap v with
  | none =>
    rw [hcl] at hres
    dsimp only at hres
    simp only [Prod.mk.injEq] at hres
    rw [← hres.1]
    exact ⟨Nat.le_refl _, fun b _ => rfl⟩
  | some pr =>
    obtain ⟨h1, clone⟩ := pr
    rw [hcl] at hres
    dsimp only at hres
    cases hmut : m h1 clone with
    | mk h2' ok =>
      rw [hmut] at hres
      cases ok with
      | true =>
        dsimp only at hres
        simp at hres
      | false =>
        dsimp only at hres
        simp only [Prod.mk.injEq] at hres
        obtain ⟨hh2, -⟩ := hres
        subst hh2
        obtain ⟨⟨e, he⟩, hfresh⟩ :=
          cloneF_fresh fuel hasSC heap v h1 clone (by rw [← hdc]; exact hcl)
        have hlen1 : heap.length ≤ h1.length := by
          rw [he, List.length_append]; omega
        obtain ⟨hmlen, hmun⟩ := hm h1 clone
        rw [hmut] at hmlen hmun
        dsimp only at hmlen hmun
        refine ⟨by omega, ?_⟩
        intro b hb
        have hnr : ¬ VReach h1 clone b := by
          intro hv
          have hv' : VReach (h1 ++ []) clone b := by rwa [List.append_nil]
          have := (hfresh [] b hv').1
          omega
        rw [hmun b (by omega) hnr, he, lookup_append_left e hb]

/-- A mutation function that throws immediately. -/
def mutThrow : MutatorFn := fun h _ => (h, false)

theorem mutThrow_local : LocalMutator mutThrow :=
  fun _ _ => ⟨Nat.le_refl _, fun _ _ _ => rfl⟩

/-- Witness for C4 at a concrete input: after a throwing mutation the
original node is untouched (the clone allocated before the throw is
garbage, never committed). -/
theorem naiveCloneAndMutate_throw_unchanged_witness :
    ([⟨NodeKind.object, false, [("a", Val.prim (Prim.pint 1))]⟩,
      (⟨NodeKind.object, false, [("a", Val.prim (Prim.pint 1))]⟩ : Node)] : Heap)[0]? =
      heapW1[0]? :=
  (naiveCloneAndMutate_throw_unchanged false 3 heapW1 (Val.ref 0) mutThrow
    [⟨NodeKind.object, false, [("a", Val.prim (Prim.pint 1))]⟩,
     ⟨NodeKind.object, false, [("a", Val.prim (Prim.pint 1))]⟩]
    mutThrow_local (by decide)).2 0 (by decide)

/-- C3 (code bug): with deep freezing enabled (per-call `enableDeepFreezing:
true`), `set` passes the committed value through `deepFreeze`, but `mutate`
does not: its handler calls `target.update` on the raw signal, bypassing
the Proxy's freezing `update` wrapper, so the value produced by the
mutation producer is committed unfrozen.  Evaluated at the failing input
`{a: 1}` with a mutation writing `a := 42`: the committed node (address 1)
is not frozen, while the same signal's `set` does freeze. -/
theorem immutableSignal_mutate_commits_unfrozen :
    ((immutableSignal 10 heapW1 (Val.ref 0) (some ⟨none, some true⟩)
        (getDefaultImmutableSignalOptions false 10) none).mutate
      ⟨heapW1, Val.ref 0⟩ mutSetA =
      some ⟨[⟨NodeKind.object, false, [("a", Val.prim (Prim.pint 1))]⟩,
             ⟨NodeKind.object, false, [("a", Val.prim (Prim.pint 42))]⟩], Val.ref 1⟩) ∧
    nodeFrozen [⟨NodeKind.object, false, [("a", Val.prim (Prim.pint 1))]⟩,
      ⟨NodeKind.object, false, [("a", Val.prim (Prim.pint 42))]⟩] 1 = false ∧
    ((immutableSignal 10 heapW1 (Val.ref 0) (some ⟨none, some true⟩)
        (getDefaultImmutableSignalOptions false 10) none).set
      ⟨heapW1, Val.ref 0⟩ (Val.ref 0) =
      some ⟨[⟨NodeKind.object, true, [("a", Val.prim (Prim.pint 1))]⟩], Val.ref 0⟩) := by
  refine ⟨by decide, rfl, by decide⟩

/-- C8: the built-in defaults are `enableDeepFreezing = false` and
`mutationProducerFn = naiveCloneAndMutate`, and for both options — in
`immutableSignal` and in `immutable` — a per-call value takes precedence,
the process-wide configuration being consulted exactly when the per-call
option is absent. -/
theorem options_defaults_and_precedence (hasSC : Bool) (fuel : Nat) :
    (getDefaultImmutableSignalOptions hasSC fuel).enableDeepFreezing = false ∧
    (getDefaultImmutableSignalOptions hasSC fuel).mutationProducerFn =
      naiveCloneAndMutate hasSC fuel ∧
    (∀ o g b, o.enableDeepFreezing = some b → resolveEnableDeepFreezing (some o) g = b) ∧
    (∀ o g, o.enableDeepFreezing = none →
      resolveEnableDeepFreezing (some o) g = g.enableDeepFreezing) ∧
    (∀ g, resolveEnableDeepFreezing none g = g.enableDeepFreezing) ∧
    (∀ o g f, o.mutationProducerFn = some f → resolveMutationProducerFn (some o) g = f) ∧
    (∀ o g, o.mutationProducerFn = none →
      resolveMutationProducerFn (some o) g = g.mutationProducerFn) ∧
    (∀ g, resolveMutationProducerFn none g = g.mutationProducerFn) ∧
    (∀ g b, resolveImmutableEnable (some (some b)) g = b) ∧
    (∀ g, resolveImmutableEnable (some none) g = g.enableDeepFreezing) ∧
    (∀ g, resolveImmutableEnable none g = g.enableDeepFreezing) := by
  refine ⟨rfl, rfl, ?_, ?_, fun g => rfl, ?_, ?_, fun g => rfl, fun g b => rfl,
    fun g => rfl, fun g => rfl⟩
  · intro o g b h
    simp [resolveEnableDeepFreezing, h]
  · intro o g h
    simp [resolveEnableDeepFreezing, h]
  · intro o g f h
    simp [resolveMutationProducerFn, h]
  · intro o g h
    simp [resolveMutationProducerFn, h]

/-- Witness for C8 at a concrete input: a per-call `enableDeepFreezing:
true` wins over the defaults. -/
theorem options_defaults_and_precedence_witness :
    resolveEnableDeepFreezing (some ⟨none, some true⟩)
      (getDefaultImmutableSignalOptions false 5) = true :=
  (options_defaults_and_precedence false 5).2.2.1 ⟨none, some true⟩
    (getDefaultImmutableSignalOptions false 5) true rfl

/-- C9: `setGlobalImmutableSignalOptions` replaces the whole process-wide
configuration: a nullish argument leaves it unchanged; with a record
argument, each omitted option is reset to the built-in default — not
retained from the previous configuration — and each supplied option is
stored. -/
theorem setGlobalOptions_replaces (hasSC : Bool) (fuel : Nat) :
    (∀ g, setGlobalImmutableSignalOptions hasSC fuel none g = g) ∧
    (∀ g o, o.mutationProducerFn = none →
      (setGlobalImmutableSignalOptions hasSC fuel (some o) g).mutationProducerFn =
        naiveCloneAndMutate hasSC fuel) ∧
    (∀ g o, o.enableDeepFreezing = none →
      (setGlobalImmutableSignalOptions hasSC fuel (some o) g).enableDeepFreezing = false) ∧
    (∀ g o f, o.mutationProducerFn = some f →
      (setGlobalImmutableSignalOptions hasSC fuel (some o) g).mutationProducerFn = f) ∧
    (∀ g o b, o.enableDeepFreezing = some b →
      (setGlobalImmutableSignalOptions hasSC fuel (some o) g).enableDeepFreezing = b) := by
  refine ⟨fun g => rfl, ?_, ?_, ?_, ?_⟩
  · intro g o h
    simp [setGlobalImmutableSignalOptions, h, getDefaultImmutableSignalOptions]
  · intro g o h
    simp [setGlobalImmutableSignalOptions, h, getDefaultImmutableSignalOptions]
  · intro g o f h
    simp [setGlobalImmutableSignalOptions, h]
  · intro g o b h
    simp [setGlobalImmutableSignalOptions, h]

/-- A distinguishable non-default production strategy, for the C9
witness. -/
def stubProducer : MutationProducerFn := fun h _ _ => (h, none)

/-- Witness for C9 at a concrete input: re-configuring with only
`enableDeepFreezing` resets the production strategy to the built-in
default, not to the previously stored `stubProducer`. -/
theorem setGlobalOptions_replaces_witness :
    (setGlobalImmutableSignalOptions false 5 (some ⟨none, some true⟩)
      ⟨stubProducer, true⟩).mutationProducerFn = naiveCloneAndMutate false 5 :=
  (setGlobalOptions_replaces false 5).2.1 ⟨stubProducer, true⟩ ⟨none, some true⟩ rfl

/-- C10: when deep freezing resolves to off, `immutable` returns the very
signal it was given — the identity, same reference, reads unchanged; when
it resolves to on, the result is the derived signal whose every read
passes the underlying value through `deepFreeze`. -/
theorem immutable_identity_or_freezing (fuel : Nat) (sig : Signal)
    (options : Option (Option Bool)) (global : GlobalOptions) :
    (resolveImmutableEnable options global = false →
      immutable fuel sig options global = sig) ∧
    (resolveImmutableEnable options global = true →
      ∀ h, immutable fuel sig options global h =
        (sig h).bind fun p => deepFreeze fuel p.1 p.2) := by
  constructor
  · intro h
    simp [immutable, h]
  · intro h hp
    simp [immutable, h]

/-- A concrete constant signal, for the C10 witness. -/
def sigW : Signal := fun h => some (h, Val.prim (Prim.pint 0))

/-- Witness for C10 at a concrete input: with everything defaulted (deep
freezing off), `immutable` is the identity. -/
theorem immutable_identity_or_freezing_witness :
    immutable 5 sigW none (getDefaultImmutableSignalOptions false 5) = sigW :=
  (immutable_identity_or_freezing 5 sigW none
    (getDefaultImmutableSignalOptions false 5)).1 rfl

end SigImm
